import Mathlib

/-
Shallow embedding of the `ledge` library (src/ledge.go) — an in-process
timing-and-statistics recorder.  Elapsed durations are modelled as exact
rationals (nanoseconds for `time.Duration` values, milliseconds once
converted by `toMillis`); the Go `map[string][]float64` is modelled as an
association list; the emitted output lines are modelled as an inductive
`Line` carrying the tag and the numeric payload of the formatted line; the
measured unit of work `f func()` is modelled as a state transformer on an
abstract world type `W`, so that "the work ran exactly once" is expressible.
A Go `panic` inside an accessor is modelled by an `Option` result (`none` =
panic).  The statistics functions are translated from the
montanaflynn/stats library that src/ledge.go calls.
-/

namespace ledge

/-- One formatted line emitted via the sink (the logger).  Each constructor
records which operation emitted the line, the tag, and the numeric payload
that the Go code formats into the line. -/
inductive Line where
  | debugL (msg : String)
  | timeL (tag : String) (elapsed : ℚ)
  | timeAboveL (tag : String) (elapsed : ℚ)
  | recordL (tag : String) (elapsed : ℚ)
  | recordMaxL (tag : String) (elapsed : ℚ)
  | countL (tag : String) (n : Nat)
  | meanL (tag : String) (r : ℚ)
  | medianL (tag : String) (r : ℚ)
  | percL (tag : String) (p : ℚ) (r : ℚ)
  | minL (tag : String) (r : ℚ)
  | maxL (tag : String) (r : ℚ)
  | varianceL (tag : String) (r : ℚ)
  deriving DecidableEq

/-- The process-wide gates: `var globalDebug`, `var globalStats`
(src/ledge.go lines 24-25). -/
structure Globals where
  debug : Bool
  stats : Bool
  deriving DecidableEq

/-- Initial process-wide state: `abool.NewBool(true)` for both gates
(src/ledge.go lines 24-25). -/
def initGlobals : Globals := { debug := true, stats := true }

/-- The `Ledge` struct: label prefix, tag-keyed records map, and the two
instance gates.  The `recordsLock` and the logger's stream are not data;
the lock's effect is modelled by treating each operation as atomic. -/
structure Ledge where
  label : String
  records : List (String × List ℚ)
  debug : Bool
  stats : Bool
  deriving DecidableEq

/-- Constructor `New(prefixComponents ...string)`: joins components with a
space inside square brackets (empty component list yields an empty label),
starts with an empty records map and both instance gates disabled. -/
def New (components : List String) : Ledge :=
  { label :=
      if components = [] then ""
      else "[" ++ String.intercalate " " components ++ "] "
    records := []
    debug := false
    stats := false }

/-- Package-level `DebugOn()`. -/
def DebugOn (g : Globals) : Globals := { g with debug := true }

/-- Package-level `DebugOff()`. -/
def DebugOff (g : Globals) : Globals := { g with debug := false }

/-- Package-level `StatsOn()`. -/
def StatsOn (g : Globals) : Globals := { g with stats := true }

/-- Package-level `StatsOff()`. -/
def StatsOff (g : Globals) : Globals := { g with stats := false }

/-- Method `(*Ledge).DebugOn()`. -/
def Ledge.DebugOn (l : Ledge) : Ledge := { l with debug := true }

/-- Method `(*Ledge).DebugOff()`. -/
def Ledge.DebugOff (l : Ledge) : Ledge := { l with debug := false }

/-- Method `(*Ledge).StatsOn()`. -/
def Ledge.StatsOn (l : Ledge) : Ledge := { l with stats := true }

/-- Method `(*Ledge).StatsOff()`. -/
def Ledge.StatsOff (l : Ledge) : Ledge := { l with stats := false }

/-- Go map read `records, ok := m[tag]` over the association-list model:
`some` plays the role of `ok = true`. -/
def lookupRec : List (String × List ℚ) → String → Option (List ℚ)
  | [], _ => none
  | (k, v) :: rest, tag => if k = tag then some v else lookupRec rest tag

/-- Go map write `m[tag] = vs` over the association-list model. -/
def setRec : List (String × List ℚ) → String → List ℚ → List (String × List ℚ)
  | [], tag, vs => [(tag, vs)]
  | (k, v) :: rest, tag, vs =>
      if k = tag then (tag, vs) :: rest else (k, v) :: setRec rest tag vs

/-- The shared append step of `Record` / `RecordAndPrint`
(src/ledge.go lines 167-171): append to the tag's slice when present,
otherwise create a one-element slice. -/
def appendSample (recs : List (String × List ℚ)) (tag : String) (ms : ℚ) :
    List (String × List ℚ) :=
  match lookupRec recs tag with
  | some records => setRec recs tag (records ++ [ms])
  | none => setRec recs tag [ms]

/-- `toMillis(d time.Duration) = d.Seconds() * 1000.0`; durations are
rational nanosecond counts. -/
def toMillis (d : ℚ) : ℚ := d / 1000000000 * 1000

/-- `Ledge.Debug`: emits iff the instance debug gate AND the global debug
gate are set (src/ledge.go lines 77-83). -/
def Debug (l : Ledge) (g : Globals) (msg : String) : List Line :=
  if l.debug && g.debug then [Line.debugL msg] else []

/-- Result of one timing-harness call: the world after the work ran, the
updated instance, and the lines emitted. -/
structure TimedResult (W : Type) where
  world : W
  ledge : Ledge
  lines : List Line
  deriving DecidableEq

/-- `Ledge.Time(tag, f)`: run `f`, then if both stats gates are set emit
the elapsed duration (src/ledge.go lines 107-116). -/
def Time {W : Type} (l : Ledge) (g : Globals) (tag : String)
    (f : W → W) (elapsed : ℚ) (w : W) : TimedResult W :=
  let w2 := f w
  if l.stats && g.stats then
    { world := w2, ledge := l, lines := [Line.timeL tag elapsed] }
  else
    { world := w2, ledge := l, lines := [] }

/-- `Ledge.TimeAbove(tag, above, f)`: run `f`, then if both stats gates are
set and `elapsed > above` (strict) emit the elapsed duration
(src/ledge.go lines 118-129). -/
def TimeAbove {W : Type} (l : Ledge) (g : Globals) (tag : String)
    (above : ℚ) (f : W → W) (elapsed : ℚ) (w : W) : TimedResult W :=
  let w2 := f w
  if l.stats && g.stats then
    if above < elapsed then
      { world := w2, ledge := l, lines := [Line.timeAboveL tag elapsed] }
    else
      { world := w2, ledge := l, lines := [] }
  else
    { world := w2, ledge := l, lines := [] }

/-- The loop of montanaflynn `stats.Max`: start from the first element and
replace the accumulator whenever a later element is strictly greater. -/
def maxGo (x : ℚ) (xs : List ℚ) : ℚ :=
  xs.foldl (fun m y => if m < y then y else m) x

/-- The loop of montanaflynn `stats.Min`: start from the first element and
replace the accumulator whenever a later element is strictly smaller. -/
def minGo (x : ℚ) (xs : List ℚ) : ℚ :=
  xs.foldl (fun m y => if y < m then y else m) x

/-- montanaflynn `stats.Max`: error (`none`) on empty input. -/
def MaxStats : List ℚ → Option ℚ
  | [] => none
  | x :: xs => some (maxGo x xs)

/-- montanaflynn `stats.Min`: error (`none`) on empty input. -/
def MinStats : List ℚ → Option ℚ
  | [] => none
  | x :: xs => some (minGo x xs)

/-- `Ledge.Record(tag, f)`: run `f`, then if both stats gates are set
append the elapsed milliseconds to the tag's records
(src/ledge.go lines 160-173). -/
def Record {W : Type} (l : Ledge) (g : Globals) (tag : String)
    (f : W → W) (elapsed : ℚ) (w : W) : TimedResult W :=
  let w2 := f w
  if l.stats && g.stats then
    { world := w2
      ledge := { l with records := appendSample l.records tag (toMillis elapsed) }
      lines := [] }
  else
    { world := w2, ledge := l, lines := [] }

/-- `Ledge.RecordAndPrint(tag, f)`: run `f`, then if both stats gates are
set emit the elapsed duration AND append the elapsed milliseconds
(src/ledge.go lines 175-191). -/
def RecordAndPrint {W : Type} (l : Ledge) (g : Globals) (tag : String)
    (f : W → W) (elapsed : ℚ) (w : W) : TimedResult W :=
  let w2 := f w
  if l.stats && g.stats then
    { world := w2
      ledge := { l with records := appendSample l.records tag (toMillis elapsed) }
      lines := [Line.recordL tag elapsed] }
  else
    { world := w2, ledge := l, lines := [] }

/-- `Ledge.RecordThenPrintIfMax(tag, f)`: run `f`; if both stats gates are
set, always append the elapsed milliseconds, and emit a line unless the tag
already had a non-empty slice whose max is `>=` the new sample
(src/ledge.go lines 131-158). -/
def RecordThenPrintIfMax {W : Type} (l : Ledge) (g : Globals) (tag : String)
    (f : W → W) (elapsed : ℚ) (w : W) : TimedResult W :=
  let w2 := f w
  if l.stats && g.stats then
    let ms := toMillis elapsed
    match lookupRec l.records tag with
    | some records =>
      match records with
      | x :: xs =>
        let r := maxGo x xs
        if ms ≤ r then
          { world := w2
            ledge := { l with records := setRec l.records tag (records ++ [ms]) }
            lines := [] }
        else
          { world := w2
            ledge := { l with records := setRec l.records tag (records ++ [ms]) }
            lines := [Line.recordMaxL tag elapsed] }
      | [] =>
        { world := w2
          ledge := { l with records := setRec l.records tag (records ++ [ms]) }
          lines := [Line.recordMaxL tag elapsed] }
    | none =>
      { world := w2
        ledge := { l with records := setRec l.records tag [ms] }
        lines := [Line.recordMaxL tag elapsed] }
  else
    { world := w2, ledge := l, lines := [] }

/-- Modelled from the spec: `RecordAbove(tag, threshold, f)` is called by
the repository's example program but is not defined under `src/`.  Per the
spec ("recordAbove(tag, threshold, work): run work; append to Recorder only
if elapsed > threshold", strict comparison as in `appendIfAbove`), it runs
the work and, when both stats gates are set, appends the elapsed
milliseconds iff the elapsed duration strictly exceeds the threshold. -/
def RecordAbove {W : Type} (l : Ledge) (g : Globals) (tag : String)
    (threshold : ℚ) (f : W → W) (elapsed : ℚ) (w : W) : TimedResult W :=
  let w2 := f w
  if l.stats && g.stats then
    if threshold < elapsed then
      { world := w2
        ledge := { l with records := appendSample l.records tag (toMillis elapsed) }
        lines := [] }
    else
      { world := w2, ledge := l, lines := [] }
  else
    { world := w2, ledge := l, lines := [] }

/-- `Ledge.ClearRecords(tag)`: reset the tag's slice to empty; the key
stays present (src/ledge.go lines 193-197). -/
def ClearRecords (l : Ledge) (tag : String) : Ledge :=
  { l with records := setRec l.records tag [] }

/-- Ascending sorted copy (montanaflynn `sortedCopyAsc`). -/
def sortedCopyAsc (l : List ℚ) : List ℚ :=
  List.insertionSort (fun a b => a ≤ b) l

/-- montanaflynn `stats.Mean`: error on empty input, else sum / n. -/
def MeanStats (input : List ℚ) : Option ℚ :=
  if input.length = 0 then none
  else some (input.sum / (input.length : ℚ))

/-- montanaflynn `stats.Median`: on a sorted copy `c` of length `l`,
error on empty; for even `l` the mean of `c[l/2-1 : l/2+1]`; for odd `l`
the element `c[l/2]`. -/
def MedianStats (input : List ℚ) : Option ℚ :=
  let c := sortedCopyAsc input
  let n := c.length
  if n = 0 then none
  else if n % 2 = 0 then MeanStats ((c.drop (n / 2 - 1)).take 2)
  else some (c.getD (n / 2) 0)

/-- montanaflynn `stats.PercentileNearestRank`: error on empty input or a
percent outside `[0,100]`; `percent = 100` returns the last element of the
sorted copy; otherwise the ordinal rank is `ceil(n * percent / 100)`, rank
`0` returns the first element, rank `r > 0` returns element `r - 1`. -/
def PercentileNearestRank (input : List ℚ) (percent : ℚ) : Option ℚ :=
  let il := input.length
  if il = 0 then none
  else if percent < 0 ∨ percent > 100 then none
  else
    let c := sortedCopyAsc input
    if percent = 100 then some (c.getD (il - 1) 0)
    else
      let rank := (Int.ceil ((il : ℚ) * percent / 100)).toNat
      if rank = 0 then some (c.getD 0 0)
      else some (c.getD (rank - 1) 0)

/-- montanaflynn `_variance(input, sample)`: error on empty input; else the
accumulated sum of squared deviations from the mean divided by
`n - sample`. -/
def varianceAux (input : List ℚ) (sample : Nat) : Option ℚ :=
  if input.length = 0 then none
  else
    match MeanStats input with
    | none => none
    | some m =>
        some ((input.foldl (fun acc n => acc + (n - m) * (n - m)) 0) /
          ((input.length : ℚ) - (sample : ℚ)))

/-- montanaflynn `stats.PopulationVariance`: `_variance` with `sample = 0`. -/
def PopulationVariance (input : List ℚ) : Option ℚ := varianceAux input 0

/-- montanaflynn `stats.Variance` = `PopulationVariance`. -/
def VarianceStats (input : List ℚ) : Option ℚ := PopulationVariance input

/-- `Ledge.Count(tag)`: if both stats gates are set, read the tag's slice
(absent reads as empty) and emit its length (src/ledge.go lines 209-218). -/
def Count (l : Ledge) (g : Globals) (tag : String) : List Line :=
  if l.stats && g.stats then
    let records := (lookupRec l.records tag).getD []
    [Line.countL tag records.length]
  else []

/-- `Ledge.Mean(tag)`: if both stats gates are set and the tag's slice is
present and non-empty, emit the mean; a `stats` error is a panic (`none`)
(src/ledge.go lines 220-236). -/
def Mean (l : Ledge) (g : Globals) (tag : String) : Option (List Line) :=
  if l.stats && g.stats then
    match lookupRec l.records tag with
    | none => some []
    | some records =>
      if records.length = 0 then some []
      else
        match MeanStats records with
        | none => none
        | some r => some [Line.meanL tag r]
  else some []

/-- `Ledge.Median(tag)` (src/ledge.go lines 238-254). -/
def Median (l : Ledge) (g : Globals) (tag : String) : Option (List Line) :=
  if l.stats && g.stats then
    match lookupRec l.records tag with
    | none => some []
    | some records =>
      if records.length = 0 then some []
      else
        match MedianStats records with
        | none => none
        | some r => some [Line.medianL tag r]
  else some []

/-- `Ledge.Perc(tag, perc)` (src/ledge.go lines 256-272). -/
def Perc (l : Ledge) (g : Globals) (tag : String) (perc : ℚ) :
    Option (List Line) :=
  if l.stats && g.stats then
    match lookupRec l.records tag with
    | none => some []
    | some records =>
      if records.length = 0 then some []
      else
        match PercentileNearestRank records perc with
        | none => none
        | some r => some [Line.percL tag perc r]
  else some []

/-- `Ledge.Min(tag)` (src/ledge.go lines 274-290). -/
def Min (l : Ledge) (g : Globals) (tag : String) : Option (List Line) :=
  if l.stats && g.stats then
    match lookupRec l.records tag with
    | none => some []
    | some records =>
      if records.length = 0 then some []
      else
        match MinStats records with
        | none => none
        | some r => some [Line.minL tag r]
  else some []

/-- `Ledge.Max(tag)` (src/ledge.go lines 292-308). -/
def Max (l : Ledge) (g : Globals) (tag : String) : Option (List Line) :=
  if l.stats && g.stats then
    match lookupRec l.records tag with
    | none => some []
    | some records =>
      if records.length = 0 then some []
      else
        match MaxStats records with
        | none => none
        | some r => some [Line.maxL tag r]
  else some []

/-- `Ledge.Variance(tag)` (src/ledge.go lines 310-326). -/
def Variance (l : Ledge) (g : Globals) (tag : String) : Option (List Line) :=
  if l.stats && g.stats then
    match lookupRec l.records tag with
    | none => some []
    | some records =>
      if records.length = 0 then some []
      else
        match VarianceStats records with
        | none => none
        | some r => some [Line.varianceL tag r]
  else some []

/-- Number of samples currently stored for a tag (absent reads as empty). -/
def countTag (l : Ledge) (tag : String) : Nat :=
  ((lookupRec l.records tag).getD []).length

/-- Sequential execution of one `Record` call per listed elapsed duration,
in list order — the serialization of concurrent `Record` calls that the
exclusive `recordsLock` produces. -/
def runRecords (l : Ledge) (g : Globals) (tag : String)
    (durations : List ℚ) : Ledge :=
  durations.foldl (fun acc e => (Record acc g tag (fun u => u) e ()).ledge) l

/-- Spec-side definition (for refinement comparison): arithmetic mean. -/
def specMean (l : List ℚ) : ℚ := l.sum / (l.length : ℚ)

/-- Spec-side definition (for refinement comparison): population variance,
the mean of squared deviations from the mean, divided by `n`. -/
def specPopVariance (l : List ℚ) : ℚ :=
  (l.map (fun x => (x - specMean l) ^ 2)).sum / (l.length : ℚ)

/-- Spec-side definition (for refinement comparison): nearest-rank
percentile as the claim words it — sort ascending, rank =
`ceiling(p/100 * n)` clamped to `[1, n]`, return the element at `rank - 1`
(0-indexed). -/
def specPercentile (l : List ℚ) (p : ℚ) : ℚ :=
  let n := l.length
  let c := sortedCopyAsc l
  let rank := min (max 1 (Int.ceil (p / 100 * (n : ℚ))).toNat) n
  c.getD (rank - 1) 0

theorem lookup_setRec_self (recs : List (String × List ℚ)) (tag : String)
    (vs : List ℚ) : lookupRec (setRec recs tag vs) tag = some vs := by
  induction recs with
  | nil => simp [setRec, lookupRec]
  | cons kv rest ih =>
      obtain ⟨k, v⟩ := kv
      by_cases hk : k = tag
      · simp [setRec, lookupRec, hk]
      · simp [setRec, lookupRec, hk, ih]

theorem lookup_appendSample (recs : List (String × List ℚ)) (tag : String)
    (ms : ℚ) :
    lookupRec (appendSample recs tag ms) tag
      = some ((lookupRec recs tag).getD [] ++ [ms]) := by
  unfold appendSample
  cases h : lookupRec recs tag with
  | none => simp [lookup_setRec_self]
  | some rs => simp [lookup_setRec_self]

theorem appendSample_ne (recs : List (String × List ℚ)) (tag : String)
    (ms : ℚ) : appendSample recs tag ms ≠ recs := by
  intro h
  have h1 := lookup_appendSample recs tag ms
  rw [h] at h1
  cases h2 : lookupRec recs tag with
  | none => rw [h2] at h1; simp at h1
  | some rs =>
      rw [h2] at h1
      have h3 : rs = rs ++ [ms] := Option.some.inj h1
      have h4 := congrArg List.length h3
      simp at h4

theorem foldl_max_bound (xs : List ℚ) : ∀ acc : ℚ,
    acc ≤ xs.foldl (fun m y => if m < y then y else m) acc ∧
    ∀ z ∈ xs, z ≤ xs.foldl (fun m y => if m < y then y else m) acc := by
  induction xs with
  | nil => intro acc; exact ⟨le_refl acc, by simp⟩
  | cons y ys ih =>
      intro acc
      simp only [List.foldl_cons]
      have hstep : acc ≤ (if acc < y then y else acc) ∧
          y ≤ (if acc < y then y else acc) := by
        by_cases hy : acc < y
        · simp [hy, le_of_lt hy]
        · simp [hy, le_of_not_lt hy]
      obtain ⟨ih1, ih2⟩ := ih (if acc < y then y else acc)
      refine ⟨le_trans hstep.1 ih1, ?_⟩
      intro z hz
      rcases List.mem_cons.mp hz with hz | hz
      · subst hz; exact le_trans hstep.2 ih1
      · exact ih2 z hz

theorem foldl_max_mem (xs : List ℚ) : ∀ acc : ℚ,
    xs.foldl (fun m y => if m < y then y else m) acc ∈ acc :: xs := by
  induction xs with
  | nil => intro acc; simp
  | cons y ys ih =>
      intro acc
      have h := ih (if acc < y then y else acc)
      rcases List.mem_cons.mp h with h | h
      · rw [List.foldl_cons, h]
        by_cases hy : acc < y <;> simp [hy]
      · rw [List.foldl_cons]
        exact List.mem_cons_of_mem _ (List.mem_cons_of_mem _ h)

theorem maxGo_mem (x : ℚ) (xs : List ℚ) : maxGo x xs ∈ x :: xs :=
  foldl_max_mem xs x

theorem le_maxGo (x : ℚ) (xs : List ℚ) : ∀ z ∈ x :: xs, z ≤ maxGo x xs := by
  intro z hz
  rcases List.mem_cons.mp hz with hz | hz
  · exact hz ▸ (foldl_max_bound xs x).1
  · exact (foldl_max_bound xs x).2 z hz

theorem foldl_min_bound (xs : List ℚ) : ∀ acc : ℚ,
    xs.foldl (fun m y => if y < m then y else m) acc ≤ acc ∧
    ∀ z ∈ xs, xs.foldl (fun m y => if y < m then y else m) acc ≤ z := by
  induction xs with
  | nil => intro acc; exact ⟨le_refl acc, by simp⟩
  | cons y ys ih =>
      intro acc
      simp only [List.foldl_cons]
      have hstep : (if y < acc then y else acc) ≤ acc ∧
          (if y < acc then y else acc) ≤ y := by
        by_cases hy : y < acc
        · simp [hy, le_of_lt hy]
        · simp [hy, le_of_not_lt hy]
      obtain ⟨ih1, ih2⟩ := ih (if y < acc then y else acc)
      refine ⟨le_trans ih1 hstep.1, ?_⟩
      intro z hz
      rcases List.mem_cons.mp hz with hz | hz
      · subst hz; exact le_trans ih1 hstep.2
      · exact ih2 z hz

theorem foldl_min_mem (xs : List ℚ) : ∀ acc : ℚ,
    xs.foldl (fun m y => if y < m then y else m) acc ∈ acc :: xs := by
  induction xs with
  | nil => intro acc; simp
  | cons y ys ih =>
      intro acc
      have h := ih (if y < acc then y else acc)
      rcases List.mem_cons.mp h with h | h
      · rw [List.foldl_cons, h]
        by_cases hy : y < acc <;> simp [hy]
      · rw [List.foldl_cons]
        exact List.mem_cons_of_mem _ (List.mem_cons_of_mem _ h)

theorem minGo_mem (x : ℚ) (xs : List ℚ) : minGo x xs ∈ x :: xs :=
  foldl_min_mem xs x

theorem minGo_le (x : ℚ) (xs : List ℚ) : ∀ z ∈ x :: xs, minGo x xs ≤ z := by
  intro z hz
  rcases List.mem_cons.mp hz with hz | hz
  · exact hz ▸ (foldl_min_bound xs x).1
  · exact (foldl_min_bound xs x).2 z hz

theorem sorted_sortedCopyAsc (l : List ℚ) :
    (sortedCopyAsc l).Sorted (fun a b => a ≤ b) :=
  List.sorted_insertionSort _ l

theorem perm_sortedCopyAsc (l : List ℚ) : (sortedCopyAsc l).Perm l :=
  List.perm_insertionSort _ l

theorem length_sortedCopyAsc (l : List ℚ) :
    (sortedCopyAsc l).length = l.length :=
  List.length_insertionSort _ l

theorem mem_sortedCopyAsc {a : ℚ} {l : List ℚ} :
    a ∈ sortedCopyAsc l ↔ a ∈ l :=
  (perm_sortedCopyAsc l).mem_iff

theorem getD_mem {c : List ℚ} {i : Nat} (h : i < c.length) :
    c.getD i 0 ∈ c := by
  rw [List.getD_eq_getElem?_getD, List.getElem?_eq_getElem h]
  exact List.getElem_mem h

theorem sorted_getD_mono {c : List ℚ} (hc : c.Sorted (fun a b => a ≤ b))
    {i j : Nat} (hij : i ≤ j) (hj : j < c.length) :
    c.getD i 0 ≤ c.getD j 0 := by
  have hi : i < c.length := lt_of_le_of_lt hij hj
  rw [List.getD_eq_getElem?_getD, List.getElem?_eq_getElem hi,
    List.getD_eq_getElem?_getD, List.getElem?_eq_getElem hj]
  have h := hc.rel_get_of_le (a := ⟨i, hi⟩) (b := ⟨j, hj⟩) hij
  simpa [List.get_eq_getElem] using h

theorem mem_index_getD {c : List ℚ} {y : ℚ} (hy : y ∈ c) :
    ∃ i, i < c.length ∧ c.getD i 0 = y := by
  obtain ⟨n, hn, he⟩ := List.mem_iff_getElem.mp hy
  exact ⟨n, hn, by rw [List.getD_eq_getElem?_getD, List.getElem?_eq_getElem hn]; exact he⟩

theorem maxStats_sorted_last (l : List ℚ) (hl : l ≠ []) :
    MaxStats l = some ((sortedCopyAsc l).getD (l.length - 1) 0) := by
  obtain ⟨x, xs, rfl⟩ := List.exists_cons_of_ne_nil hl
  have hlen : (sortedCopyAsc (x :: xs)).length = (x :: xs).length :=
    length_sortedCopyAsc _
  have hpos : 0 < (x :: xs).length := by simp
  have hidx : (x :: xs).length - 1 < (sortedCopyAsc (x :: xs)).length := by
    rw [hlen]; omega
  set c := sortedCopyAsc (x :: xs) with hc
  set last := c.getD ((x :: xs).length - 1) 0 with hlast
  have hmem : last ∈ (x :: xs) := mem_sortedCopyAsc.mp (getD_mem hidx)
  have hub : ∀ y ∈ (x :: xs), y ≤ last := by
    intro y hy
    obtain ⟨i, hi, he⟩ := mem_index_getD (mem_sortedCopyAsc.mpr hy)
    have : i ≤ (x :: xs).length - 1 := by rw [hlen] at hi; omega
    calc y = c.getD i 0 := he.symm
    _ ≤ last := sorted_getD_mono (sorted_sortedCopyAsc _) this hidx
  have h1 : maxGo x xs ≤ last := hub _ (maxGo_mem x xs)
  have h2 : last ≤ maxGo x xs := le_maxGo x xs _ hmem
  simp [MaxStats, le_antisymm h1 h2]

theorem minStats_sorted_head (l : List ℚ) (hl : l ≠ []) :
    MinStats l = some ((sortedCopyAsc l).getD 0 0) := by
  obtain ⟨x, xs, rfl⟩ := List.exists_cons_of_ne_nil hl
  have hlen : (sortedCopyAsc (x :: xs)).length = (x :: xs).length :=
    length_sortedCopyAsc _
  have hidx : 0 < (sortedCopyAsc (x :: xs)).length := by rw [hlen]; simp
  set c := sortedCopyAsc (x :: xs) with hc
  set hd := c.getD 0 0 with hhd
  have hmem : hd ∈ (x :: xs) := mem_sortedCopyAsc.mp (getD_mem hidx)
  have hlb : ∀ y ∈ (x :: xs), hd ≤ y := by
    intro y hy
    obtain ⟨i, hi, he⟩ := mem_index_getD (mem_sortedCopyAsc.mpr hy)
    calc hd ≤ c.getD i 0 := sorted_getD_mono (sorted_sortedCopyAsc _) (Nat.zero_le i) hi
    _ = y := he
  have h1 : minGo x xs ≤ hd := minGo_le x xs _ hmem
  have h2 : hd ≤ minGo x xs := hlb _ (minGo_mem x xs)
  simp [MinStats, le_antisymm h2 h1]

theorem foldl_add_map (f : ℚ → ℚ) (l : List ℚ) : ∀ acc : ℚ,
    l.foldl (fun a x => a + f x) acc = acc + (l.map f).sum := by
  induction l with
  | nil => intro acc; simp
  | cons y ys ih =>
      intro acc
      rw [List.foldl_cons, ih (acc + f y)]
      simp [add_assoc]

theorem drop_take_two {c : List ℚ} {i : Nat} (h : i + 1 < c.length) :
    (c.drop i).take 2 = [c.getD i 0, c.getD (i + 1) 0] := by
  have hi : i < c.length := by omega
  rw [List.drop_eq_getElem_cons hi, List.drop_eq_getElem_cons h]
  rw [List.getD_eq_getElem?_getD, List.getElem?_eq_getElem hi,
    List.getD_eq_getElem?_getD, List.getElem?_eq_getElem h]
  rfl

theorem recordMax_records_eq {W : Type} (l : Ledge) (g : Globals)
    (tag : String) (f : W → W) (elapsed : ℚ) (w : W)
    (hg : (l.stats && g.stats) = true) :
    (RecordThenPrintIfMax l g tag f elapsed w).ledge.records
      = appendSample l.records tag (toMillis elapsed) := by
  simp only [RecordThenPrintIfMax, appendSample, hg, if_true]
  cases h : lookupRec l.records tag with
  | none => simp [h]
  | some records =>
      cases records with
      | nil => simp [h]
      | cons x xs =>
          by_cases hle : toMillis elapsed ≤ maxGo x xs <;> simp [h, hle]

theorem runRecords_stored (g : Globals) (tag : String) (durations : List ℚ) :
    ∀ l : Ledge, (l.stats && g.stats) = true →
      (lookupRec (runRecords l g tag durations).records tag).getD []
        = (lookupRec l.records tag).getD [] ++ durations.map toMillis := by
  induction durations with
  | nil => intro l hg; simp [runRecords]
  | cons e es ih =>
      intro l hg
      have hg2 : l.stats = true ∧ g.stats = true := by simpa using hg
      obtain ⟨hs1, hs2⟩ := hg2
      have hstep : runRecords l g tag (e :: es)
          = runRecords { l with records := appendSample l.records tag (toMillis e) }
              g tag es := by
        simp [runRecords, Record, hs1, hs2]
      rw [hstep, ih { l with records := appendSample l.records tag (toMillis e) }
        (by simp [hs1, hs2])]
      simp [lookup_appendSample]

/-- Claim C2: every timing-harness primitive runs the measured unit of work
exactly once — the world after the call is exactly `f w` — for every
combination of gate states; the gates control only retention and
emission. -/
theorem c2_work_runs_once {W : Type} (l : Ledge) (g : Globals) (tag : String)
    (above : ℚ) (f : W → W) (elapsed : ℚ) (w : W) :
    (Time l g tag f elapsed w).world = f w ∧
    (TimeAbove l g tag above f elapsed w).world = f w ∧
    (Record l g tag f elapsed w).world = f w ∧
    (RecordAndPrint l g tag f elapsed w).world = f w ∧
    (RecordThenPrintIfMax l g tag f elapsed w).world = f w ∧
    (RecordAbove l g tag above f elapsed w).world = f w := by
  refine ⟨?_, ?_, ?_, ?_, ?_, ?_⟩ <;>
    simp only [Time, TimeAbove, Record, RecordAndPrint, RecordThenPrintIfMax,
      RecordAbove] <;>
    (repeat' split) <;> rfl

/-- Claim C1: a gated action's side effect (append to the records / emit a
line) happens iff both the instance-level stats gate and the process-wide
stats gate are enabled at the moment of the decision: when the conjunction
of the two gates is false no timing, recording or statistics operation
stores a sample or emits a line, and when it is true the unconditional
operations do store or emit. -/
theorem c1_gating {W : Type} (l : Ledge) (g : Globals) (tag : String)
    (above p : ℚ) (f : W → W) (elapsed : ℚ) (w : W) :
    ((l.stats && g.stats) = false →
      (Time l g tag f elapsed w).ledge = l ∧
      (Time l g tag f elapsed w).lines = [] ∧
      (TimeAbove l g tag above f elapsed w).ledge = l ∧
      (TimeAbove l g tag above f elapsed w).lines = [] ∧
      (Record l g tag f elapsed w).ledge = l ∧
      (Record l g tag f elapsed w).lines = [] ∧
      (RecordAndPrint l g tag f elapsed w).ledge = l ∧
      (RecordAndPrint l g tag f elapsed w).lines = [] ∧
      (RecordThenPrintIfMax l g tag f elapsed w).ledge = l ∧
      (RecordThenPrintIfMax l g tag f elapsed w).lines = [] ∧
      (RecordAbove l g tag above f elapsed w).ledge = l ∧
      (RecordAbove l g tag above f elapsed w).lines = [] ∧
      Count l g tag = [] ∧ Mean l g tag = some [] ∧ Median l g tag = some [] ∧
      Perc l g tag p = some [] ∧ Min l g tag = some [] ∧ Max l g tag = some [] ∧
      Variance l g tag = some []) ∧
    ((l.stats && g.stats) = true →
      (Time l g tag f elapsed w).lines = [Line.timeL tag elapsed] ∧
      (Record l g tag f elapsed w).ledge.records ≠ l.records ∧
      (RecordAndPrint l g tag f elapsed w).ledge.records ≠ l.records ∧
      (RecordAndPrint l g tag f elapsed w).lines = [Line.recordL tag elapsed] ∧
      (RecordThenPrintIfMax l g tag f elapsed w).ledge.records ≠ l.records ∧
      Count l g tag = [Line.countL tag (countTag l tag)]) := by
  constructor
  · intro h
    simp [Time, TimeAbove, Record, RecordAndPrint, RecordThenPrintIfMax,
      RecordAbove, Count, Mean, Median, Perc, Min, Max, Variance, h]
  · intro h
    refine ⟨?_, ?_, ?_, ?_, ?_, ?_⟩
    · simp [Time, h]
    · simp only [Record, h, if_true]
      simpa using appendSample_ne l.records tag (toMillis elapsed)
    · simp only [RecordAndPrint, h, if_true]
      simpa using appendSample_ne l.records tag (toMillis elapsed)
    · simp [RecordAndPrint, h]
    · rw [recordMax_records_eq l g tag f elapsed w h]
      exact appendSample_ne l.records tag (toMillis elapsed)
    · simp [Count, h, countTag]

/-- Witness for C1: with only the instance stats gate enabled on a fresh
instance (the global gate starts enabled), `Time` emits its line; with both
instance gates at their defaults, `Record` emits nothing and leaves the
instance unchanged. -/
theorem c1_gating_witness :
    (Time ((New []).StatsOn) initGlobals "t" (fun u : Unit => u) 5 ()).lines
      = [Line.timeL "t" 5] ∧
    (Record (New []) initGlobals "t" (fun u : Unit => u) 5 ()).lines = []
      ∧ (Record (New []) initGlobals "t" (fun u : Unit => u) 5 ()).ledge
      = New [] := by
  refine ⟨?_, ?_, ?_⟩
  · exact ((c1_gating ((New []).StatsOn) initGlobals "t" 1 50
      (fun u : Unit => u) 5 ()).2 rfl).1
  · exact (((c1_gating (New []) initGlobals "t" 1 50
      (fun u : Unit => u) 5 ()).1 rfl).2.2.2.2.2.1)
  · exact (((c1_gating (New []) initGlobals "t" 1 50
      (fun u : Unit => u) 5 ()).1 rfl).2.2.2.2.1)

/-- Claim C10: at process start the process-wide debug and stats gates are
both enabled, a fresh instance has both instance gates disabled and an
empty records map, no gated side effect occurs before any toggle call, and
enabling only the instance-level gate suffices for a gated action to take
effect. -/
theorem c10_initial_state {W : Type} (components : List String)
    (msg tag : String) (f : W → W) (elapsed : ℚ) (w : W) :
    initGlobals.debug = true ∧ initGlobals.stats = true ∧
    (New components).debug = false ∧ (New components).stats = false ∧
    (New components).records = [] ∧
    Debug (New components) initGlobals msg = [] ∧
    (Record (New components) initGlobals tag f elapsed w).ledge
      = New components ∧
    (Record (New components) initGlobals tag f elapsed w).lines = [] ∧
    (Time (New components) initGlobals tag f elapsed w).lines = [] ∧
    Debug ((New components).DebugOn) initGlobals msg = [Line.debugL msg] ∧
    (Record ((New components).StatsOn) initGlobals tag f elapsed w).ledge.records
      = appendSample (New components).records tag (toMillis elapsed) :=
  ⟨rfl, rfl, rfl, rfl, rfl, rfl, rfl, rfl, rfl, rfl, rfl⟩

/-- Claim C8: the above-threshold variants compare strictly — `TimeAbove`
emits iff `elapsed > above` and `RecordAbove` stores iff
`elapsed > threshold`; elapsed equal to the threshold produces no side
effect. -/
theorem c8_strict_threshold {W : Type} (l : Ledge) (g : Globals)
    (tag : String) (above : ℚ) (f : W → W) (elapsed : ℚ) (w : W)
    (hg : (l.stats && g.stats) = true) :
    ((TimeAbove l g tag above f elapsed w).lines
      = if above < elapsed then [Line.timeAboveL tag elapsed] else []) ∧
    (TimeAbove l g tag above f elapsed w).ledge = l ∧
    ((RecordAbove l g tag above f elapsed w).ledge.records
      = if above < elapsed then appendSample l.records tag (toMillis elapsed)
        else l.records) ∧
    (RecordAbove l g tag above f elapsed w).lines = [] ∧
    (elapsed = above →
      (TimeAbove l g tag above f elapsed w).lines = [] ∧
      (RecordAbove l g tag above f elapsed w).ledge = l) := by
  refine ⟨?_, ?_, ?_, ?_, ?_⟩
  · by_cases hlt : above < elapsed <;> simp [TimeAbove, hg, hlt]
  · by_cases hlt : above < elapsed <;> simp [TimeAbove, hg, hlt]
  · by_cases hlt : above < elapsed <;> simp [RecordAbove, hg, hlt]
  · by_cases hlt : above < elapsed <;> simp [RecordAbove, hg, hlt]
  · intro he
    subst he
    simp [TimeAbove, RecordAbove, hg, lt_irrefl]

/-- Witness for C8: elapsed `5` against threshold `3` emits the line, and
elapsed equal to the threshold leaves the records untouched. -/
theorem c8_strict_threshold_witness :
    (TimeAbove ((New []).StatsOn) initGlobals "t" 3 (fun u : Unit => u) 5 ()).lines
      = [Line.timeAboveL "t" 5] ∧
    (RecordAbove ((New []).StatsOn) initGlobals "t" 5 (fun u : Unit => u) 5 ()).ledge
      = (New []).StatsOn := by
  constructor
  · have h := (c8_strict_threshold ((New []).StatsOn) initGlobals "t" 3
      (fun u : Unit => u) 5 () rfl).1
    rw [h]
    norm_num
  · exact ((c8_strict_threshold ((New []).StatsOn) initGlobals "t" 5
      (fun u : Unit => u) 5 () rfl).2.2.2.2 rfl).2

/-- Claim C9: the exclusive lock serializes concurrent `Record` calls; for
every serialized order of the calls' elapsed durations, with the stats
gates enabled throughout, every sample is appended in order (none lost,
duplicated or corrupted), and `N` threads issuing `M` calls each — `N*M`
calls in all — leave `count(tag) = N*M`. -/
theorem c9_concurrent_records (l : Ledge) (g : Globals) (tag : String)
    (durations : List ℚ) (N M : Nat) (hg : (l.stats && g.stats) = true) :
    (lookupRec (runRecords l g tag durations).records tag).getD []
      = (lookupRec l.records tag).getD [] ++ durations.map toMillis ∧
    countTag (runRecords l g tag durations) tag
      = countTag l tag + durations.length ∧
    (durations.length = N * M → countTag l tag = 0 →
      countTag (runRecords l g tag durations) tag = N * M) := by
  have h1 := runRecords_stored g tag durations l hg
  have h2 : countTag (runRecords l g tag durations) tag
      = countTag l tag + durations.length := by
    unfold countTag
    rw [h1]
    simp
  exact ⟨h1, h2, fun hNM h0 => by rw [h2, h0, hNM, Nat.zero_add]⟩

/-- Witness for C9: six recorded durations, as two threads of three calls
each would produce, yield a count of `2 * 3` on the tag. -/
theorem c9_concurrent_records_witness :
    countTag (runRecords ((New []).StatsOn) initGlobals "t"
      [1, 2, 3, 4, 5, 6]) "t" = 2 * 3 :=
  (c9_concurrent_records ((New []).StatsOn) initGlobals "t"
    [1, 2, 3, 4, 5, 6] 2 3 rfl).2.2 rfl rfl

/-- Claim C7: on a tag whose stored sequence is absent or empty, each
accessor that is undefined on empty input (mean, median, percentile, min,
max, variance) is a no-op — it emits nothing and does not panic — while
count is defined and reports 0 (when the stats gates are enabled). -/
theorem c7_empty_accessors (l : Ledge) (g : Globals) (tag : String) (p : ℚ)
    (h : lookupRec l.records tag = none ∨ lookupRec l.records tag = some []) :
    Mean l g tag = some [] ∧ Median l g tag = some [] ∧
    Perc l g tag p = some [] ∧ Min l g tag = some [] ∧
    Max l g tag = some [] ∧ Variance l g tag = some [] ∧
    ((l.stats && g.stats) = true → Count l g tag = [Line.countL tag 0]) := by
  refine ⟨?_, ?_, ?_, ?_, ?_, ?_, ?_⟩
  · rcases h with h | h <;>
      (by_cases hg : (l.stats && g.stats) = true <;> simp [Mean, h, hg])
  · rcases h with h | h <;>
      (by_cases hg : (l.stats && g.stats) = true <;> simp [Median, h, hg])
  · rcases h with h | h <;>
      (by_cases hg : (l.stats && g.stats) = true <;> simp [Perc, h, hg])
  · rcases h with h | h <;>
      (by_cases hg : (l.stats && g.stats) = true <;> simp [Min, h, hg])
  · rcases h with h | h <;>
      (by_cases hg : (l.stats && g.stats) = true <;> simp [Max, h, hg])
  · rcases h with h | h <;>
      (by_cases hg : (l.stats && g.stats) = true <;> simp [Variance, h, hg])
  · intro hg
    rcases h with h | h <;> simp [Count, h, hg]

/-- Witness for C7: an absent tag on a fresh instance with stats enabled:
`Mean` reports nothing and `Count` reports 0. -/
theorem c7_empty_accessors_witness :
    Mean ((New []).StatsOn) initGlobals "t" = some [] ∧
    Count ((New []).StatsOn) initGlobals "t" = [Line.countL "t" 0] := by
  have h := c7_empty_accessors ((New []).StatsOn) initGlobals "t" 50
    (Or.inl rfl)
  exact ⟨h.1, h.2.2.2.2.2.2 rfl⟩

/-- Claim C3: `RecordThenPrintIfMax` always appends the elapsed
milliseconds when the gates are satisfied, and emits a line iff the new
sample strictly exceeds every sample stored for the tag before the
insertion (a tie is not a new max; an absent or empty prior sequence is
vacuously a new max). -/
theorem c3_record_then_print_if_max {W : Type} (l : Ledge) (g : Globals)
    (tag : String) (f : W → W) (elapsed : ℚ) (w : W)
    (hg : (l.stats && g.stats) = true) :
    (RecordThenPrintIfMax l g tag f elapsed w).ledge.records
      = appendSample l.records tag (toMillis elapsed) ∧
    ((RecordThenPrintIfMax l g tag f elapsed w).lines
        = [Line.recordMaxL tag elapsed]
      ↔ ∀ y ∈ (lookupRec l.records tag).getD [], y < toMillis elapsed) ∧
    ((RecordThenPrintIfMax l g tag f elapsed w).lines = []
      ↔ ¬ ∀ y ∈ (lookupRec l.records tag).getD [], y < toMillis elapsed) := by
  have hlines : (RecordThenPrintIfMax l g tag f elapsed w).lines
      = (if ∀ y ∈ (lookupRec l.records tag).getD [], y < toMillis elapsed
         then [Line.recordMaxL tag elapsed] else []) := by
    simp only [RecordThenPrintIfMax, hg, if_true]
    cases h : lookupRec l.records tag with
    | none => simp [h]
    | some records =>
        cases records with
        | nil => simp [h]
        | cons x xs =>
            simp only [Option.getD_some]
            by_cases hle : toMillis elapsed ≤ maxGo x xs
            · have hnot : ¬ ∀ y ∈ (x :: xs), y < toMillis elapsed := by
                intro hall
                exact absurd (hall _ (maxGo_mem x xs)) (not_lt.mpr hle)
              simp only [if_pos hle, if_neg hnot]
            · have hlt : maxGo x xs < toMillis elapsed := lt_of_not_le hle
              have hall : ∀ y ∈ (x :: xs), y < toMillis elapsed := fun y hy =>
                lt_of_le_of_lt (le_maxGo x xs y hy) hlt
              simp only [if_neg hle, if_pos hall]
  refine ⟨recordMax_records_eq l g tag f elapsed w hg, ?_, ?_⟩ <;>
    rw [hlines] <;>
    by_cases hall : ∀ y ∈ (lookupRec l.records tag).getD [], y < toMillis elapsed <;>
    simp [hall]

/-- Witness for C3: with a prior sample of 2 ms, an elapsed duration of
3 ms (3000000 ns) is appended and reported as a new max. -/
theorem c3_record_then_print_if_max_witness :
    (RecordThenPrintIfMax
        { label := "", records := [("t", [2])], debug := false, stats := true }
        initGlobals "t" (fun u : Unit => u) 3000000 ()).ledge.records
      = appendSample [("t", [2])] "t" (toMillis 3000000) ∧
    (RecordThenPrintIfMax
        { label := "", records := [("t", [2])], debug := false, stats := true }
        initGlobals "t" (fun u : Unit => u) 3000000 ()).lines
      = [Line.recordMaxL "t" 3000000] := by
  have h := c3_record_then_print_if_max
    { label := "", records := [("t", [2])], debug := false, stats := true }
    initGlobals "t" (fun u : Unit => u) 3000000 () rfl
  refine ⟨h.1, ?_⟩
  apply (h.2.1).mpr
  intro y hy
  have hy2 : y = 2 := by simpa [lookupRec] using hy
  subst hy2
  show (2 : ℚ) < toMillis 3000000
  norm_num [toMillis]

theorem foldl_sq_dev (m : ℚ) (l : List ℚ) : ∀ acc : ℚ,
    l.foldl (fun acc n => acc + (n - m) * (n - m)) acc
      = acc + (l.map (fun n => (n - m) * (n - m))).sum := by
  induction l with
  | nil => intro acc; simp
  | cons y ys ih =>
      intro acc
      rw [List.foldl_cons, ih (acc + (y - m) * (y - m))]
      simp [add_assoc]

/-- Claim C6: `Variance` computes the population variance — the mean of
squared deviations from the mean, divided by `n` — so a single-element
sequence has variance 0, and `[2,4,4,4,5,5,7,9]` has variance 4. -/
theorem c6_variance :
    (∀ l : List ℚ, l ≠ [] → VarianceStats l = some (specPopVariance l)) ∧
    (∀ x : ℚ, VarianceStats [x] = some 0) ∧
    VarianceStats [2, 4, 4, 4, 5, 5, 7, 9] = some 4 := by
  refine ⟨?_, ?_, by with_unfolding_all rfl⟩
  · intro l hl
    have hl0 : l.length ≠ 0 := fun h => hl (List.length_eq_zero.mp h)
    simp only [VarianceStats, PopulationVariance, varianceAux, MeanStats,
      hl0, if_false]
    rw [foldl_sq_dev]
    simp [specPopVariance, specMean, pow_two]
  · intro x
    simp [VarianceStats, PopulationVariance, varianceAux, MeanStats]

/-- Witness for C6: the variance of the two-element list `[1, 2]` is its
population variance. -/
theorem c6_variance_witness :
    VarianceStats [1, 2] = some (specPopVariance [1, 2]) :=
  c6_variance.1 [1, 2] (by simp)

/-- Claim C5: `Median` computes the standard median on the sorted copy —
the middle element for odd length, the average of the two middle elements
for even length; the median of `[1,2,3,4]` is `5/2` and of `[1,2,3]` is
`2`. -/
theorem c5_median :
    (∀ l : List ℚ, l ≠ [] →
      MedianStats l = some (
        if l.length % 2 = 0 then
          ((sortedCopyAsc l).getD (l.length / 2 - 1) 0
            + (sortedCopyAsc l).getD (l.length / 2) 0) / 2
        else (sortedCopyAsc l).getD (l.length / 2) 0)) ∧
    MedianStats [1, 2, 3, 4] = some (5 / 2) ∧
    MedianStats [1, 2, 3] = some 2 := by
  refine ⟨?_, by with_unfolding_all rfl, by with_unfolding_all rfl⟩
  intro l hl
  have hn : (sortedCopyAsc l).length = l.length := length_sortedCopyAsc l
  have hl0 : l.length ≠ 0 := fun h => hl (List.length_eq_zero.mp h)
  simp only [MedianStats, hn]
  rw [if_neg hl0]
  by_cases he : l.length % 2 = 0
  · rw [if_pos he, if_pos he]
    have hidx : l.length / 2 - 1 + 1 < (sortedCopyAsc l).length := by
      rw [hn]; omega
    have heq : l.length / 2 - 1 + 1 = l.length / 2 := by omega
    rw [drop_take_two hidx, heq]
    simp [MeanStats]
  · rw [if_neg he, if_neg he]

/-- Witness for C5: the median of the odd-length list `[5, 1, 3]` is the
middle element of its sorted copy. -/
theorem c5_median_witness :
    MedianStats [5, 1, 3] = some (
      if ([5, 1, 3] : List ℚ).length % 2 = 0 then
        ((sortedCopyAsc [5, 1, 3]).getD (([5, 1, 3] : List ℚ).length / 2 - 1) 0
          + (sortedCopyAsc [5, 1, 3]).getD (([5, 1, 3] : List ℚ).length / 2) 0) / 2
      else (sortedCopyAsc [5, 1, 3]).getD (([5, 1, 3] : List ℚ).length / 2) 0) :=
  c5_median.1 [5, 1, 3] (by simp)

theorem percNearest_eq_spec (l : List ℚ) (p : ℚ) (hl : l ≠ [])
    (hp0 : 0 ≤ p) (hp1 : p ≤ 100) :
    PercentileNearestRank l p = some (specPercentile l p) := by
  have hn0 : l.length ≠ 0 := fun h => hl (List.length_eq_zero.mp h)
  have hn1 : 1 ≤ l.length := Nat.one_le_iff_ne_zero.mpr hn0
  have hnotrange : ¬ (p < 0 ∨ p > 100) := by push_neg; exact ⟨hp0, hp1⟩
  simp only [PercentileNearestRank, specPercentile]
  rw [if_neg hn0, if_neg hnotrange]
  by_cases hp : p = 100
  · subst hp
    rw [if_pos rfl]
    have h1 : (100 : ℚ) / 100 * (l.length : ℚ) = ((l.length : ℚ)) := by
      norm_num
    rw [h1, Int.ceil_natCast, Int.toNat_natCast]
    have h3 : min (max 1 l.length) l.length = l.length := by omega
    rw [h3]
  · rw [if_neg hp]
    have harg : (l.length : ℚ) * p / 100 = p / 100 * (l.length : ℚ) := by ring
    rw [harg]
    set R := (Int.ceil (p / 100 * (l.length : ℚ))).toNat with hR
    have hRn : R ≤ l.length := by
      have hd : p / 100 ≤ 1 := by
        rw [div_le_one (by norm_num : (0 : ℚ) < 100)]
        exact hp1
      have hle : p / 100 * (l.length : ℚ) ≤ (l.length : ℚ) := by
        calc p / 100 * (l.length : ℚ) ≤ 1 * (l.length : ℚ) :=
          mul_le_mul_of_nonneg_right hd (Nat.cast_nonneg l.length)
        _ = (l.length : ℚ) := one_mul _
      have hceil : Int.ceil (p / 100 * (l.length : ℚ)) ≤ (l.length : ℤ) := by
        rw [Int.ceil_le]
        push_cast
        exact hle
      calc R ≤ ((l.length : ℤ)).toNat := Int.toNat_le_toNat hceil
      _ = l.length := Int.toNat_natCast l.length
    by_cases hR0 : R = 0
    · rw [if_pos hR0]
      have h4 : min (max 1 R) l.length - 1 = 0 := by omega
      rw [h4]
    · rw [if_neg hR0]
      have h4 : min (max 1 R) l.length - 1 = R - 1 := by omega
      rw [h4]

theorem specPercentile_mono (l : List ℚ) (hl : l ≠ []) {p q : ℚ}
    (hpq : p ≤ q) : specPercentile l p ≤ specPercentile l q := by
  have hn0 : l.length ≠ 0 := fun h => hl (List.length_eq_zero.mp h)
  have hmul : p / 100 * (l.length : ℚ) ≤ q / 100 * (l.length : ℚ) :=
    mul_le_mul_of_nonneg_right
      ((div_le_div_iff_of_pos_right (by norm_num : (0 : ℚ) < 100)).mpr hpq)
      (Nat.cast_nonneg l.length)
  have hRpq : (Int.ceil (p / 100 * (l.length : ℚ))).toNat
      ≤ (Int.ceil (q / 100 * (l.length : ℚ))).toNat :=
    Int.toNat_le_toNat (Int.ceil_le_ceil hmul)
  simp only [specPercentile]
  apply sorted_getD_mono (sorted_sortedCopyAsc l)
  · omega
  · rw [length_sortedCopyAsc]
    omega

theorem percNearest_100 (l : List ℚ) (hl : l ≠ []) :
    PercentileNearestRank l 100 = MaxStats l := by
  have hn0 : l.length ≠ 0 := fun h => hl (List.length_eq_zero.mp h)
  rw [maxStats_sorted_last l hl]
  simp only [PercentileNearestRank]
  rw [if_neg hn0, if_neg (by norm_num)]
  simp

theorem percNearest_0 (l : List ℚ) (hl : l ≠ []) :
    PercentileNearestRank l 0 = MinStats l := by
  have hn0 : l.length ≠ 0 := fun h => hl (List.length_eq_zero.mp h)
  rw [minStats_sorted_head l hl]
  simp only [PercentileNearestRank]
  rw [if_neg hn0, if_neg (by norm_num),
    if_neg (by norm_num : ¬ (0 : ℚ) = 100)]
  have h1 : ((l.length : ℚ) * 0 / 100) = 0 := by ring
  rw [h1, Int.ceil_zero, Int.toNat_zero, if_pos rfl]

theorem specPercentile_singleton (x : ℚ) (p : ℚ) :
    specPercentile [x] p = x := by
  have h0 : ∀ R : ℕ, min (max 1 R) 1 - 1 = 0 := fun R => by omega
  simp only [specPercentile, List.length_singleton, h0]
  rfl

/-- Claim C4: on a non-empty sequence, `PercentileNearestRank p` for `p` in
`[0,100]` equals the element of the ascending sort at rank
`ceiling(p/100 * n)` clamped to `[1,n]` (1-indexed); hence it is monotone
non-decreasing in `p`, percentile 100 equals the max, percentile 0 returns
the smallest element, and on a singleton it returns that element for every
`p`. -/
theorem c4_percentile (l : List ℚ) (p q : ℚ) (hl : l ≠ [])
    (hp0 : 0 ≤ p) (hpq : p ≤ q) (hq100 : q ≤ 100) :
    PercentileNearestRank l p = some (specPercentile l p) ∧
    PercentileNearestRank l q = some (specPercentile l q) ∧
    specPercentile l p ≤ specPercentile l q ∧
    PercentileNearestRank l 100 = MaxStats l ∧
    PercentileNearestRank l 0 = MinStats l ∧
    (∀ x : ℚ, l = [x] → PercentileNearestRank l p = some x) := by
  have hp100 : p ≤ 100 := le_trans hpq hq100
  have hq0 : 0 ≤ q := le_trans hp0 hpq
  refine ⟨percNearest_eq_spec l p hl hp0 hp100,
    percNearest_eq_spec l q hl hq0 hq100,
    specPercentile_mono l hl hpq,
    percNearest_100 l hl,
    percNearest_0 l hl, ?_⟩
  intro x hx
  subst hx
  rw [percNearest_eq_spec [x] p (List.cons_ne_nil x []) hp0 hp100,
    specPercentile_singleton]

/-- Witness for C4: the 50th and 75th percentiles of `[3, 1, 2]` agree with
the clamped nearest-rank formula, are monotone, and the 100th percentile is
the max. -/
theorem c4_percentile_witness :
    PercentileNearestRank [3, 1, 2] 50 = some (specPercentile [3, 1, 2] 50) ∧
    specPercentile [3, 1, 2] 50 ≤ specPercentile [3, 1, 2] 75 ∧
    PercentileNearestRank [3, 1, 2] 100 = MaxStats [3, 1, 2] ∧
    PercentileNearestRank [3, 1, 2] 0 = MinStats [3, 1, 2] := by
  have h := c4_percentile [3, 1, 2] 50 75 (by simp) (by norm_num)
    (by norm_num) (by norm_num)
  exact ⟨h.1, h.2.2.1, h.2.2.2.1, h.2.2.2.2.1⟩

end ledge
